import Mathlib

/-!
Verification of the Logs-Visualization analytics core.

The definitions below are a shallow embedding of the JavaScript modules:

* `src/js/modules/edge-aggregator.js` / `src/LogViz/static/js/modules/edge-aggregator.js`
  (`combineEdgesByOperation`),
* `src/js/modules/filters.js` (`applyFilters` range step, `validateEntryRange`),
* `src/js/config.js` (`CONFIG`),
* the search-utils module (`parseSearchQuery`, `buildSearchIndex`),
* the registry-path utilities (`findCommonPrefixes`, `createShortenedLabel`).

JavaScript strings are Lean `String`s; JS `Map` objects (which preserve
insertion order and replace values in place on `set`) are association lists
with in-place replacement; JS `Array.prototype.sort` (a stable comparison
sort) is modelled by `List.insertionSort` on the comparator's ordering;
numbers that the code only ever treats as integers (timestamps, entry
indices) are `Int`.  Optional / possibly-`undefined` fields are `Option`.
String helpers (`strStarts`, `strHas`, `strToLower`, splitting) are defined
on the character list so that they evaluate by `decide`; they implement the
same functions as the JS primitives they stand for.
-/

/-! ### String helpers (JS string primitives) -/

/-- JS whitespace test used by `query.split(/\s+/)` (ASCII subset). -/
def isWsChar (c : Char) : Bool := c = ' ' || c = '\t' || c = '\n' || c = '\r'

/-- Core of `String.prototype.split(/\s+/)`: maximal whitespace runs separate
tokens; a leading or trailing run contributes an empty token, as in JS. -/
def splitWsCore : List Char → List Char → Bool → List String
  | [], acc, _ => [String.mk acc.reverse]
  | c :: cs, acc, prevWs =>
    if isWsChar c then
      if prevWs then splitWsCore cs [] true
      else String.mk acc.reverse :: splitWsCore cs [] true
    else splitWsCore cs (c :: acc) false

/-- JS `query.split(/\s+/)`. -/
def splitWs (s : String) : List String := splitWsCore s.data [] false

/-- Character-list prefix test: `charsStart needle hay` is true when `needle`
is an initial segment of `hay`. -/
def charsStart : List Char → List Char → Bool
  | [], _ => true
  | _ :: _, [] => false
  | a :: as, b :: bs => a = b && charsStart as bs

/-- JS `s.startsWith(pre)`. -/
def strStarts (s pre : String) : Bool := charsStart pre.data s.data

/-- JS `s.endsWith(post)`. -/
def strEnds (s post : String) : Bool := charsStart post.data.reverse s.data.reverse

/-- `charsHave needle hay`: `needle` occurs contiguously inside `hay`. -/
def charsHave (needle : List Char) : List Char → Bool
  | [] => charsStart needle []
  | c :: rest => charsStart needle (c :: rest) || charsHave needle rest

/-- JS `s.includes(sub)`. -/
def strHas (s sub : String) : Bool := charsHave sub.data s.data

/-- JS `c.toLowerCase()` on one character. -/
def lcChar (c : Char) : Char := Char.toLower c

/-- JS `s.toLowerCase()` (character-wise, as on the ASCII data involved). -/
def strToLower (s : String) : String := String.mk (s.data.map lcChar)

/-- Core of `String.prototype.split(sep)` for a one-character separator. -/
def splitCharCore (sep : Char) : List Char → List Char → List String
  | [], acc => [String.mk acc.reverse]
  | c :: cs, acc =>
    if c = sep then String.mk acc.reverse :: splitCharCore sep cs []
    else splitCharCore sep cs (c :: acc)

/-- JS `s.split(sep)` for a one-character separator (registry `'\\'`). -/
def splitChar (s : String) (sep : Char) : List String := splitCharCore sep s.data []

/-- JS `s.substring(n)` (drop the first `n` characters). -/
def substrAfter (s : String) (n : Nat) : String := String.mk (s.data.drop n)

/-- JS truthiness of an optional string (`undefined` and `""` are falsy). -/
def optTruthy : Option String → Bool
  | some s => s ≠ ""
  | none => false

/-- JS `o || dflt` for an optional string (falls back on `undefined` or `""`). -/
def optStrOr (o : Option String) (dflt : String) : String :=
  match o with
  | some s => if s = "" then dflt else s
  | none => dflt

/-! ### Ordered maps (JS `Map`: insertion order kept, `set` replaces in place) -/

/-- JS `map.get(key)` (first — and, keys being unique, only — binding). -/
def lookupKV : List (String × α) → String → Option α
  | [], _ => none
  | (k, v) :: rest, key => if k = key then some v else lookupKV rest key

/-- JS `map.set(key, value)`: replace the binding in place, else append. -/
def mapSet : List (String × α) → String → α → List (String × α)
  | [], k, v => [(k, v)]
  | (k', v') :: rest, k, v =>
    if k' = k then (k, v) :: rest else (k', v') :: mapSet rest k v

/-! ### Data model (spec section 3, as consumed by the modules) -/

/-- Graph node, `{id, label, type, title?, pid?}`. -/
structure Node where
  id : String
  label : String
  type : String
  title : Option String := none
  pid : Option Int := none
  deriving DecidableEq

/-- Raw edge as consumed by the aggregation / filtering / search modules. -/
structure Edge where
  id : Option String := none
  src : String
  dst : String
  operation : String
  timestamp : Int
  entry_index : Int
  line_id : Option String := none
  title : Option String := none
  metadata : Option String := none
  sequence_group_id : Option String := none
  sequence_color : Option String := none
  sequence_pattern : Option String := none
  deriving DecidableEq

/-- Dataset: the node and edge collections handed to the core. -/
structure Dataset where
  nodes : List Node
  edges : List Edge
  deriving DecidableEq

/-! ### Configuration (`src/js/config.js`) -/

structure Config where
  defaultEntryRange : Int
  maxEntryRange : Int
  deriving DecidableEq

def CONFIG : Config := { defaultEntryRange := 100, maxEntryRange := 10000 }

/-! ### Entry-range validation (`src/js/modules/filters.js`, `validateEntryRange`) -/

structure ValidationResult where
  valid : Bool
  message : Option String := none
  deriving DecidableEq

/-- `validateEntryRange(start, end)` from the filters module. -/
def validateEntryRange (start stop : Int) : ValidationResult :=
  if start > stop then
    { valid := false
      message := some "Start entry must be less than or equal to end entry" }
  else if stop - start > CONFIG.maxEntryRange then
    { valid := false
      message := some "Range too large! Maximum 10000 entries allowed" }
  else { valid := true }

/-! ### Range windowing (`applyFilters`, edge range step) -/

/-- The entry-range window of `applyFilters`:
`data.edges.filter(e => e.entry_index >= startEntry && e.entry_index <= endEntry)`. -/
def windowEdgesByRange (edges : List Edge) (startEntry endEntry : Int) : List Edge :=
  edges.filter fun edge =>
    decide (startEntry ≤ edge.entry_index) && decide (edge.entry_index ≤ endEntry)

/-! ### Edge aggregation (`combineEdgesByOperation`) -/

/-- Combined edge: the raw edge's fields plus the aggregation provenance
fields added by `combineEdgesByOperation` (spec section 3, "Edge (combined)"). -/
structure CombinedEdge where
  id : String
  src : String
  dst : String
  operation : String
  timestamp : Int
  entry_index : Int
  line_id : Option String := none
  title : Option String := none
  metadata : Option String := none
  sequence_group_id : Option String := none
  sequence_color : Option String := none
  sequence_pattern : Option String := none
  combined_count : Nat
  original_edges : List Edge
  line_ids : List (Option String)
  entry_indices : List Int
  timestamps : List Int
  timestamp_min : Int
  timestamp_max : Int
  is_combined : Bool
  deriving DecidableEq

/-- The grouping key: the template string `src-dst-operation`. -/
def edgeKey (e : Edge) : String := e.src ++ "-" ++ e.dst ++ "-" ++ e.operation

/-- The fresh map entry `{...edge, id: key, combined_count: 1, ...}` created
when the key is not yet in the map. -/
def mkSingle (e : Edge) : CombinedEdge :=
  { id := edgeKey e
    src := e.src
    dst := e.dst
    operation := e.operation
    timestamp := e.timestamp
    entry_index := e.entry_index
    line_id := e.line_id
    title := e.title
    metadata := e.metadata
    sequence_group_id := e.sequence_group_id
    sequence_color := e.sequence_color
    sequence_pattern := e.sequence_pattern
    combined_count := 1
    original_edges := [e]
    line_ids := [e.line_id]
    entry_indices := [e.entry_index]
    timestamps := [e.timestamp]
    timestamp_min := e.timestamp
    timestamp_max := e.timestamp
    is_combined := false }

/-- The in-place mutation of an existing map entry when a further edge with
the same key is absorbed (`combined_count++`, provenance pushes, running
min/max, first truthy sequence-group assignment kept). -/
def mergeInto (existing : CombinedEdge) (e : Edge) : CombinedEdge :=
  { existing with
    combined_count := existing.combined_count + 1
    original_edges := existing.original_edges ++ [e]
    line_ids := existing.line_ids ++ [e.line_id]
    entry_indices := existing.entry_indices ++ [e.entry_index]
    timestamps := existing.timestamps ++ [e.timestamp]
    timestamp_min := min existing.timestamp_min e.timestamp
    timestamp_max := max existing.timestamp_max e.timestamp
    sequence_group_id :=
      if optTruthy e.sequence_group_id && !optTruthy existing.sequence_group_id
      then e.sequence_group_id else existing.sequence_group_id
    sequence_color :=
      if optTruthy e.sequence_group_id && !optTruthy existing.sequence_group_id
      then e.sequence_color else existing.sequence_color
    sequence_pattern :=
      if optTruthy e.sequence_group_id && !optTruthy existing.sequence_group_id
      then e.sequence_pattern else existing.sequence_pattern }

/-- One `edges.forEach` step: merge into the entry at `edgeKey e` (a JS `Map`
keeps the entry's position) or append a fresh entry. -/
def insertEdge : List (String × CombinedEdge) → Edge → List (String × CombinedEdge)
  | [], e => [(edgeKey e, mkSingle e)]
  | (k, v) :: rest, e =>
    if k = edgeKey e then (k, mergeInto v e) :: rest
    else (k, v) :: insertEdge rest e

/-- The `combinedMap` after the `edges.forEach` loop. -/
def buildCombinedMap (edges : List Edge) : List (String × CombinedEdge) :=
  edges.foldl insertEdge []

/-- JS `Math.min(...xs)` over a non-empty integer array (`0` is never hit:
every `entry_indices` array holds at least one element). -/
def listMinInt : List Int → Int
  | [] => 0
  | x :: xs => xs.foldl min x

/-- The post-loop marking step: entries with `combined_count > 1` get
`is_combined = true` and `entry_index = Math.min(...entry_indices)`. -/
def finalizeCombined (edge : CombinedEdge) : CombinedEdge :=
  if edge.combined_count > 1 then
    { edge with is_combined := true, entry_index := listMinInt edge.entry_indices }
  else edge

/-- Ordering of the final `.sort((a, b) => a.entry_index - b.entry_index)`. -/
def entryIndexLe (a b : CombinedEdge) : Prop := a.entry_index ≤ b.entry_index

instance : DecidableRel entryIndexLe :=
  fun a b => inferInstanceAs (Decidable (a.entry_index ≤ b.entry_index))

instance : IsTotal CombinedEdge entryIndexLe :=
  ⟨fun a b => Int.le_total a.entry_index b.entry_index⟩

instance : IsTrans CombinedEdge entryIndexLe :=
  ⟨fun _ _ _ h1 h2 => le_trans h1 h2⟩

/-- `combineEdgesByOperation(edges)` from the edge-aggregator module: group
by `src-dst-operation` key, mark combined entries, sort ascending by
`entry_index` (the JS sort is stable; no property below depends on tie
order, so a stable insertion sort models it). -/
def combineEdgesByOperation (edges : List Edge) : List CombinedEdge :=
  List.insertionSort entryIndexLe
    (((buildCombinedMap edges).map Prod.snd).map finalizeCombined)

/-! ### Query parsing (search-utils `parseSearchQuery`) -/

/-- The structured predicate set produced by `parseSearchQuery`. -/
structure SearchPatterns where
  operation : Option String := none
  registry : Option String := none
  process : Option String := none
  type : Option String := none
  general : List String := []
  deriving DecidableEq

/-- Alternatives of the operation-name prefix regex `/^(reg|file|tcp|udp|process)/i`. -/
def opNamePrefixes : List String := ["reg", "file", "tcp", "udp", "process"]

/-- Alternatives of the operation-verb suffix regex
`/(read|write|query|set|open|close|create|delete|send|receive|connect|disconnect|start)$/i`. -/
def opVerbSuffixes : List String :=
  ["read", "write", "query", "set", "open", "close", "create", "delete",
   "send", "receive", "connect", "disconnect", "start"]

/-- The heuristic operation-name detector (both case-insensitive regex tests). -/
def isOperationLikeTerm (term : String) : Bool :=
  opNamePrefixes.any (fun p => strStarts (strToLower term) p) ||
  opVerbSuffixes.any (fun sfx => strEnds (strToLower term) sfx)

/-- The registry-path detector (`term.includes('hklm') || ...`, case-sensitive). -/
def isRegistryPathTerm (term : String) : Bool :=
  strHas term "hklm" || strHas term "hkcu" || strHas term "hkcr" ||
  strHas term "hku" || strHas term "hkey_"

/-- One loop iteration of `parseSearchQuery`: classify a single term by the
if/else-if chain, in source order. -/
def applyTerm (p : SearchPatterns) (term : String) : SearchPatterns :=
  if strStarts term "op:" then { p with operation := some (substrAfter term 3) }
  else if isOperationLikeTerm term then { p with operation := some term }
  else if isRegistryPathTerm term then { p with registry := some term }
  else if strStarts term "process:" || strStarts term "pid:" then
    { p with process := some term }
  else if strStarts term "type:" then { p with type := some (substrAfter term 5) }
  else { p with general := p.general ++ [term] }

/-- `parseSearchQuery(query)`: split on whitespace, classify every term. -/
def parseSearchQuery (query : String) : SearchPatterns :=
  (splitWs query).foldl applyTerm {}

/-! ### Search index (search-utils `buildSearchIndex`) -/

/-- A search-index value: `{type: 'node'|'edge', id, text, data, ...}`.  The
JS `type` discriminator is the constructor. -/
inductive IndexEntry where
  | nodeEntry (id : String) (text : String) (data : Node)
  | edgeEntry (id : String) (text : String) (data : Edge)
      (operation : String) (entry_index : Int) (src : String) (dst : String)
  deriving DecidableEq

/-- The searchable text of a node:
`[label, id, type, title || '', pid ? 'pid:'+pid : ''].join(' ').toLowerCase()`. -/
def nodeSearchText (n : Node) : String :=
  strToLower (String.intercalate " "
    [n.label, n.id, n.type, n.title.getD "",
     match n.pid with
     | some p => if p = 0 then "" else "pid:" ++ toString p
     | none => ""])

/-- The searchable text of an edge: operation, endpoints, title, serialized
metadata, `line:`-tagged line id, `entry:`-tagged entry index, joined and
lower-cased (`metadata` is carried here as its serialized string). -/
def edgeSearchText (e : Edge) : String :=
  strToLower (String.intercalate " "
    [e.operation, e.src, e.dst, e.title.getD "", e.metadata.getD "",
     (match e.line_id with
      | some l => if l = "" then "" else "line:" ++ l
      | none => ""),
     if e.entry_index = 0 then "" else "entry:" ++ toString e.entry_index])

/-- The id stored for an edge entry: `edge.id || edge.src + '-' + edge.dst`. -/
def edgeIdxId (e : Edge) : String := optStrOr e.id (e.src ++ "-" ++ e.dst)

/-- The map key of a node entry: `'node-' + node.id`. -/
def nodeMapKey (n : Node) : String := "node-" ++ n.id

/-- The map key of an edge entry: `'edge-' + (edge.id || edge.src + '-' + edge.dst)`. -/
def edgeMapKey (e : Edge) : String := "edge-" ++ edgeIdxId e

/-- The index value stored for a node. -/
def mkNodeEntry (n : Node) : IndexEntry :=
  .nodeEntry n.id (nodeSearchText n) n

/-- The index value stored for an edge (`operation` lower-cased; the code's
`edge.operation ? edge.operation.toLowerCase() : ''` equals `strToLower`
on a string field, since lower-casing `""` is `""`). -/
def mkEdgeEntry (e : Edge) : IndexEntry :=
  .edgeEntry (edgeIdxId e) (edgeSearchText e) e
    (strToLower e.operation) e.entry_index e.src e.dst

/-- `buildSearchIndex(data)`: index every node, then every edge, into one
insertion-ordered map. -/
def buildSearchIndex (d : Dataset) : List (String × IndexEntry) :=
  d.edges.foldl (fun idx e => mapSet idx (edgeMapKey e) (mkEdgeEntry e))
    (d.nodes.foldl (fun idx n => mapSet idx (nodeMapKey n) (mkNodeEntry n)) [])

/-- The key a stored value belongs under (every insertion into the index
uses the key computed from the inserted value). -/
def entryKey : IndexEntry → String
  | .nodeEntry id _ _ => "node-" ++ id
  | .edgeEntry id _ _ _ _ _ _ => "edge-" ++ id

/-! ### Registry path optimization (registry path utilities) -/

/-- A group member as built by `groupByRootKey`: `{id, label, parts}` with
`parts = label.split('\\')`. -/
structure PathEntry where
  id : String
  label : String
  parts : List String
  deriving DecidableEq

/-- Build the `{id, label, parts}` record for a registry node. -/
def mkPathEntry (node : Node) : PathEntry :=
  { id := node.id, label := node.label, parts := splitChar node.label '\\' }

/-- A common-prefix candidate: `{prefix, nodeIds, length}` (the JS `prefix`
field is `prefixKey` here). -/
structure PrefixInfo where
  prefixKey : String
  nodeIds : List String
  length : Nat
  deriving DecidableEq

/-- All ordered pairs `(group[i], group[j])` with `i < j`, in loop order. -/
def pairsOf : List α → List (α × α)
  | [] => []
  | x :: xs => xs.map (fun y => (x, y)) ++ pairsOf xs

/-- Length of the longest common initial segment run of two paths. -/
def commonSegRun : List String → List String → Nat
  | a :: as, b :: bs => if a = b then commonSegRun as bs + 1 else 0
  | _, _ => 0

/-- The `commonLength` computed by the pair loop: segments are compared for
`k < min(len1, len2) - 1`, so the run is capped one short of the shorter
path's length (its final segment never becomes part of a prefix). -/
def commonLength (p1 p2 : List String) : Nat :=
  min (commonSegRun p1 p2) (min p1.length p2.length - 1)

/-- JS `Set.prototype.add` on an insertion-ordered id set. -/
def addIdOnce (l : List String) (id : String) : List String :=
  if id ∈ l then l else l ++ [id]

/-- Record one qualifying pair under its prefix key
(`prefixMap.get(prefixKey).add(i).add(j)`, creating the set if missing). -/
def addPrefixPair (m : List (String × List String)) (key id1 id2 : String) :
    List (String × List String) :=
  match lookupKV m key with
  | some ids => mapSet m key (addIdOnce (addIdOnce ids id1) id2)
  | none => mapSet m key (addIdOnce (addIdOnce [] id1) id2)

/-- Ordering of the candidate sort `(a, b) => b.length - a.length`
(longest prefix first). -/
def prefixLenGe (a b : PrefixInfo) : Prop := b.length ≤ a.length

instance : DecidableRel prefixLenGe :=
  fun a b => inferInstanceAs (Decidable (b.length ≤ a.length))

instance : IsTotal PrefixInfo prefixLenGe :=
  ⟨fun a b => Nat.le_total b.length a.length⟩

instance : IsTrans PrefixInfo prefixLenGe :=
  ⟨fun _ _ _ h1 h2 => le_trans h2 h1⟩

/-- `findCommonPrefixes(group)`: for every pair compute the whole-segment
common prefix, record prefixes of at least two segments, then rank the
candidates longest first. -/
def findCommonPrefixes (group : List PathEntry) : List PrefixInfo :=
  List.insertionSort prefixLenGe
    (((pairsOf group).foldl
        (fun m pr =>
          let cl := commonLength pr.1.parts pr.2.parts
          if cl ≥ 2 then
            addPrefixPair m (String.intercalate "\\" (pr.1.parts.take cl))
              pr.1.id pr.2.id
          else m)
        []).map
      (fun kv =>
        { prefixKey := kv.1, nodeIds := kv.2
          length := (splitChar kv.1 '\\').length }))

/-- The shortened label built from a matching candidate:
`rootPart + '\~\' + remainingParts.join('\\')`. -/
def shortLabelFor (entry : PathEntry) (p : PrefixInfo) : String :=
  (entry.parts.headD "") ++ "\\~\\" ++
    String.intercalate "\\" (entry.parts.drop (splitChar p.prefixKey '\\').length)

/-- `createShortenedLabel(nodeEntry, prefixes)`: walk the ranked candidates;
the node must belong to a candidate set of size at least 2 and have more
segments than the prefix length plus one; otherwise keep looking, and fall
back to the original label. -/
def createShortenedLabel (nodeEntry : PathEntry) : List PrefixInfo → String
  | [] => nodeEntry.label
  | p :: rest =>
    if nodeEntry.id ∈ p.nodeIds ∧ 2 ≤ p.nodeIds.length then
      if (splitChar p.prefixKey '\\').length + 1 < nodeEntry.parts.length then
        shortLabelFor nodeEntry p
      else createShortenedLabel nodeEntry rest
    else createShortenedLabel nodeEntry rest

/-- Qualification test actually implemented by `createShortenedLabel`: the
node is in a candidate set of size at least 2 and has more path segments
than the prefix length plus one. -/
def qualifiesCandidate (entry : PathEntry) (p : PrefixInfo) : Bool :=
  decide (entry.id ∈ p.nodeIds) && decide (2 ≤ p.nodeIds.length) &&
    decide ((splitChar p.prefixKey '\\').length + 1 < entry.parts.length)

/-- Modelled from the spec: the qualification the spec states — candidate
set of size at least 2 and strictly more path segments than the prefix. -/
def specQualifies (entry : PathEntry) (p : PrefixInfo) : Bool :=
  decide (entry.id ∈ p.nodeIds) && decide (2 ≤ p.nodeIds.length) &&
    decide ((splitChar p.prefixKey '\\').length < entry.parts.length)

/-- Modelled from the spec: the shortened label the spec describes — the
first (longest) candidate for which the node spec-qualifies determines the
label, otherwise the label is unchanged. -/
def specShortenedLabel (entry : PathEntry) (prefixes : List PrefixInfo) : String :=
  match prefixes.find? (specQualifies entry) with
  | some p => shortLabelFor entry p
  | none => entry.label

/-! ### Concrete fixtures used by the concrete-input theorems below -/

/-- Edge whose `src` contains the key delimiter `-`. -/
def aliasEdgeA : Edge :=
  { src := "a-b", dst := "c", operation := "x", timestamp := 0, entry_index := 1 }

/-- Edge with different endpoints but the same `src-dst-operation` key string. -/
def aliasEdgeB : Edge :=
  { src := "a", dst := "b-c", operation := "x", timestamp := 0, entry_index := 2 }

/-- A lone edge carrying its own `id`. -/
def singletonEdge : Edge :=
  { id := some "edge-7", src := "a", dst := "b", operation := "x",
    timestamp := 5, entry_index := 1 }

/-- The only node of the dangling-edge dataset. -/
def danglingNode : Node := { id := "n1", label := "proc", type := "Process" }

/-- Edge whose `dst` references no node of the dataset. -/
def danglingEdge : Edge :=
  { src := "n1", dst := "ghost", operation := "x", timestamp := 0, entry_index := 1 }

/-- Dataset with a dangling edge (`ghost` is not a node id). -/
def danglingData : Dataset := { nodes := [danglingNode], edges := [danglingEdge] }

/-- Registry path entry `A\B\C`. -/
def regP1 : PathEntry :=
  { id := "n1", label := "A\\B\\C", parts := splitChar "A\\B\\C" '\\' }

/-- Registry path entry `A\B\D`. -/
def regP2 : PathEntry :=
  { id := "n2", label := "A\\B\\D", parts := splitChar "A\\B\\D" '\\' }

/-- First id-less edge between `a` and `b`. -/
def shadowE1 : Edge :=
  { src := "a", dst := "b", operation := "x", timestamp := 0, entry_index := 1 }

/-- Second, distinct id-less edge between the same endpoints. -/
def shadowE2 : Edge :=
  { src := "a", dst := "b", operation := "y", timestamp := 0, entry_index := 2 }

/-- Dataset holding two distinct id-less edges with the same endpoints. -/
def shadowData : Dataset := { nodes := [], edges := [shadowE1, shadowE2] }

/-- An in-range edge for the windowing witness. -/
def windowEdge : Edge :=
  { src := "a", dst := "b", operation := "x", timestamp := 0, entry_index := 3 }

/-- Two same-key edges for the aggregation witnesses. -/
def dupEdge1 : Edge :=
  { src := "p", dst := "f", operation := "CreateFile", timestamp := 10, entry_index := 4 }

def dupEdge2 : Edge :=
  { src := "p", dst := "f", operation := "CreateFile", timestamp := 12, entry_index := 2 }

/-- Running sum of `combined_count` over the bindings of the combined map. -/
def sumCounts (m : List (String × CombinedEdge)) : Nat :=
  (m.map (fun kv => kv.2.combined_count)).sum

/-- Invariant of every binding of the combined map built over edges drawn
from `S`: the provenance counts agree, the original-edge list is non-empty
and drawn from `S`, and a count-one binding is exactly a fresh entry. -/
def goodVal (S : List Edge) (kv : String × CombinedEdge) : Prop :=
  kv.2.combined_count = kv.2.original_edges.length ∧
  kv.2.entry_indices = kv.2.original_edges.map Edge.entry_index ∧
  kv.2.original_edges ≠ [] ∧
  (∀ e ∈ kv.2.original_edges, e ∈ S) ∧
  (kv.2.combined_count = 1 → ∃ e, kv.2.original_edges = [e] ∧ kv.2 = mkSingle e)

/-- Unique-keys invariant of a JS `Map` modelled as an association list. -/
def keysUnique (m : List (String × α)) : Prop := (m.map Prod.fst).Nodup

/-- The single combined edge produced from `dupEdge1, dupEdge2`. -/
def c2Sample : CombinedEdge := finalizeCombined (mergeInto (mkSingle dupEdge1) dupEdge2)

/-! ### Lemmas: the combined map -/

theorem sumCounts_insertEdge (m : List (String × CombinedEdge)) (e : Edge) :
    sumCounts (insertEdge m e) = sumCounts m + 1 := by
  induction m with
  | nil => simp [insertEdge, sumCounts, mkSingle]
  | cons kv rest ih =>
    obtain ⟨k, v⟩ := kv
    by_cases h : k = edgeKey e
    · simp [insertEdge, h, sumCounts, mergeInto]
      omega
    · simp only [insertEdge, h, if_false, sumCounts, List.map_cons, List.sum_cons] at ih ⊢
      omega

theorem sumCounts_foldl (l : List Edge) :
    ∀ m, sumCounts (l.foldl insertEdge m) = sumCounts m + l.length := by
  induction l with
  | nil => intro m; simp
  | cons e rest ih =>
    intro m
    simp only [List.foldl_cons, ih, sumCounts_insertEdge, List.length_cons]
    omega

theorem finalize_count (c : CombinedEdge) :
    (finalizeCombined c).combined_count = c.combined_count := by
  unfold finalizeCombined; split <;> rfl

theorem finalize_orig (c : CombinedEdge) :
    (finalizeCombined c).original_edges = c.original_edges := by
  unfold finalizeCombined; split <;> rfl

theorem finalize_indices (c : CombinedEdge) :
    (finalizeCombined c).entry_indices = c.entry_indices := by
  unfold finalizeCombined; split <;> rfl

theorem mem_combine_iff (edges : List Edge) (c : CombinedEdge) :
    c ∈ combineEdgesByOperation edges ↔
      c ∈ ((buildCombinedMap edges).map Prod.snd).map finalizeCombined := by
  unfold combineEdgesByOperation
  exact (List.perm_insertionSort entryIndexLe _).mem_iff

theorem goodVal_insertEdge (S : List Edge) (e : Edge) (he : e ∈ S) :
    ∀ m, (∀ kv ∈ m, goodVal S kv) → ∀ kv ∈ insertEdge m e, goodVal S kv := by
  intro m
  induction m with
  | nil =>
    intro _ kv hkv
    simp only [insertEdge, List.mem_singleton] at hkv
    subst hkv
    refine ⟨rfl, rfl, by simp [mkSingle], ?_, fun _ => ⟨e, rfl, rfl⟩⟩
    intro x hx
    simp only [mkSingle, List.mem_singleton] at hx
    simpa [hx] using he
  | cons hd rest ih =>
    obtain ⟨k, v⟩ := hd
    intro hm kv hkv
    by_cases h : k = edgeKey e
    · simp only [insertEdge, h, if_true] at hkv
      rcases List.mem_cons.mp hkv with heq | hmem
      · subst heq
        have hv : goodVal S (k, v) := hm (k, v) (List.mem_cons_self _ _)
        replace hv : v.combined_count = v.original_edges.length ∧
            v.entry_indices = v.original_edges.map Edge.entry_index ∧
            v.original_edges ≠ [] ∧ (∀ x ∈ v.original_edges, x ∈ S) ∧
            (v.combined_count = 1 →
              ∃ e0, v.original_edges = [e0] ∧ v = mkSingle e0) := hv
        obtain ⟨hc, hi, hne, hmemS, _⟩ := hv
        refine ⟨?_, ?_, ?_, ?_, ?_⟩
        · show (mergeInto v e).combined_count = (mergeInto v e).original_edges.length
          simp [mergeInto, hc]
        · show (mergeInto v e).entry_indices =
            (mergeInto v e).original_edges.map Edge.entry_index
          simp [mergeInto, hi]
        · show (mergeInto v e).original_edges ≠ []
          simp [mergeInto]
        · intro x hx
          replace hx : x ∈ v.original_edges ++ [e] := hx
          rcases List.mem_append.mp hx with hx | hx
          · exact hmemS x hx
          · simp only [List.mem_singleton] at hx
            simpa [hx] using he
        · intro hone
          exfalso
          replace hone : v.combined_count + 1 = 1 := hone
          have h0 : v.original_edges.length ≠ 0 := by
            intro h0
            exact hne (List.length_eq_zero.mp h0)
          omega
      · exact hm kv (List.mem_cons_of_mem _ hmem)
    · simp only [insertEdge, h, if_false] at hkv
      rcases List.mem_cons.mp hkv with heq | hmem
      · subst heq; exact hm (k, v) (List.mem_cons_self _ _)
      · exact ih (fun kv h => hm kv (List.mem_cons_of_mem _ h)) kv hmem

theorem goodVal_foldl (S : List Edge) (l : List Edge) (hl : ∀ e ∈ l, e ∈ S) :
    ∀ m, (∀ kv ∈ m, goodVal S kv) → ∀ kv ∈ l.foldl insertEdge m, goodVal S kv := by
  induction l with
  | nil => intro m hm; simpa using hm
  | cons e rest ih =>
    intro m hm
    simp only [List.foldl_cons]
    exact ih (fun x hx => hl x (List.mem_cons_of_mem _ hx)) _
      (goodVal_insertEdge S e (hl e (List.mem_cons_self _ _)) m hm)

theorem goodVal_buildMap (edges : List Edge) :
    ∀ kv ∈ buildCombinedMap edges, goodVal edges kv :=
  goodVal_foldl edges edges (fun _ h => h) [] (by simp)

theorem cover_insertEdge_self (m : List (String × CombinedEdge)) (e : Edge) :
    ∃ kv ∈ insertEdge m e, e ∈ kv.2.original_edges := by
  induction m with
  | nil => exact ⟨(edgeKey e, mkSingle e), by simp [insertEdge], by simp [mkSingle]⟩
  | cons hd rest ih =>
    obtain ⟨k, v⟩ := hd
    by_cases h : k = edgeKey e
    · refine ⟨(k, mergeInto v e), by simp [insertEdge, h], ?_⟩
      simp [mergeInto]
    · obtain ⟨kv, hkv, hmem⟩ := ih
      exact ⟨kv, by simp [insertEdge, h, hkv], hmem⟩

theorem cover_insertEdge_mono (m : List (String × CombinedEdge)) (e' e : Edge)
    (hex : ∃ kv ∈ m, e ∈ kv.2.original_edges) :
    ∃ kv ∈ insertEdge m e', e ∈ kv.2.original_edges := by
  induction m with
  | nil => simp at hex
  | cons hd rest ih =>
    obtain ⟨k, v⟩ := hd
    obtain ⟨kv, hkv, hmem⟩ := hex
    by_cases h : k = edgeKey e'
    · rcases List.mem_cons.mp hkv with heq | hrest
      · subst heq
        refine ⟨(k, mergeInto v e'), by simp [insertEdge, h], ?_⟩
        show e ∈ v.original_edges ++ [e']
        exact List.mem_append_left _ hmem
      · exact ⟨kv, by simp [insertEdge, h, hrest], hmem⟩
    · rcases List.mem_cons.mp hkv with heq | hrest
      · subst heq
        exact ⟨(k, v), by simp [insertEdge, h], hmem⟩
      · obtain ⟨kv', hkv', hmem'⟩ := ih ⟨kv, hrest, hmem⟩
        exact ⟨kv', by simp [insertEdge, h, hkv'], hmem'⟩

theorem cover_foldl_pres (l : List Edge) :
    ∀ m e, (∃ kv ∈ m, e ∈ kv.2.original_edges) →
      ∃ kv ∈ l.foldl insertEdge m, e ∈ kv.2.original_edges := by
  induction l with
  | nil => intro m e h; simpa using h
  | cons e' rest ih =>
    intro m e h
    simp only [List.foldl_cons]
    exact ih _ e (cover_insertEdge_mono m e' e h)

theorem cover_foldl_mem (l : List Edge) :
    ∀ m e, e ∈ l → ∃ kv ∈ l.foldl insertEdge m, e ∈ kv.2.original_edges := by
  induction l with
  | nil => intro m e h; simp at h
  | cons e' rest ih =>
    intro m e h
    simp only [List.foldl_cons]
    rcases List.mem_cons.mp h with heq | hrest
    · subst heq
      exact cover_foldl_pres rest _ e (cover_insertEdge_self m e)
    · exact ih _ e hrest

theorem cover_buildMap (edges : List Edge) (e : Edge) (h : e ∈ edges) :
    ∃ kv ∈ buildCombinedMap edges, e ∈ kv.2.original_edges :=
  cover_foldl_mem edges [] e h

/-! ### Lemmas: the search-index map -/

theorem lookup_mapSet_self (m : List (String × α)) (k : String) (v : α) :
    lookupKV (mapSet m k v) k = some v := by
  induction m with
  | nil => simp [mapSet, lookupKV]
  | cons hd rest ih =>
    obtain ⟨k', v'⟩ := hd
    by_cases h : k' = k
    · simp [mapSet, h, lookupKV]
    · simp [mapSet, h, lookupKV, ih]

theorem lookup_mapSet_ne (m : List (String × α)) (k k' : String) (v : α)
    (h : k' ≠ k) : lookupKV (mapSet m k v) k' = lookupKV m k' := by
  induction m with
  | nil => simp [mapSet, lookupKV, Ne.symm h]
  | cons hd rest ih =>
    obtain ⟨k0, v0⟩ := hd
    by_cases h0 : k0 = k
    · subst h0
      simp [mapSet, lookupKV, Ne.symm h]
    · simp only [mapSet, h0, if_false]
      by_cases h1 : k0 = k'
      · simp [lookupKV, h1]
      · simp [lookupKV, h1, ih]

theorem mem_mapSet_weak (m : List (String × α)) (k : String) (v : α) (kv : String × α)
    (h : kv ∈ mapSet m k v) : kv = (k, v) ∨ kv ∈ m := by
  induction m with
  | nil => simpa [mapSet] using h
  | cons hd rest ih =>
    obtain ⟨k0, v0⟩ := hd
    by_cases h0 : k0 = k
    · simp only [mapSet, h0, if_true] at h
      rcases List.mem_cons.mp h with heq | hmem
      · exact Or.inl heq
      · exact Or.inr (List.mem_cons_of_mem _ hmem)
    · simp only [mapSet, h0, if_false] at h
      rcases List.mem_cons.mp h with heq | hmem
      · exact Or.inr (by simp [heq])
      · rcases ih hmem with heq | hmem'
        · exact Or.inl heq
        · exact Or.inr (List.mem_cons_of_mem _ hmem')

theorem keys_mapSet_sub (m : List (String × α)) (k : String) (v : α) (a : String)
    (h : a ∈ (mapSet m k v).map Prod.fst) : a = k ∨ a ∈ m.map Prod.fst := by
  obtain ⟨kv, hkv, hfst⟩ := List.mem_map.mp h
  rcases mem_mapSet_weak m k v kv hkv with heq | hmem
  · subst heq; exact Or.inl hfst.symm
  · exact Or.inr (List.mem_map.mpr ⟨kv, hmem, hfst⟩)

theorem keysUnique_mapSet (m : List (String × α)) (k : String) (v : α)
    (h : keysUnique m) : keysUnique (mapSet m k v) := by
  induction m with
  | nil => simp [mapSet, keysUnique]
  | cons hd rest ih =>
    obtain ⟨k0, v0⟩ := hd
    have hrest : keysUnique rest := (List.nodup_cons.mp h).2
    have hk0 : k0 ∉ rest.map Prod.fst := (List.nodup_cons.mp h).1
    by_cases h0 : k0 = k
    · subst h0
      simpa [mapSet, keysUnique] using h
    · simp only [mapSet, h0, if_false]
      refine List.nodup_cons.mpr ⟨?_, ih hrest⟩
      intro hmem
      simp only [List.map_cons] at hmem
      rcases keys_mapSet_sub rest k v k0 hmem with heq | hmem'
      · exact h0 heq
      · exact hk0 hmem'

theorem lookup_mem (m : List (String × α)) (k : String) (v : α)
    (h : lookupKV m k = some v) : (k, v) ∈ m := by
  induction m with
  | nil => simp [lookupKV] at h
  | cons hd rest ih =>
    obtain ⟨k0, v0⟩ := hd
    by_cases h0 : k0 = k
    · subst h0
      simp only [lookupKV, if_true] at h
      simp [← Option.some.injEq .. |>.mp h]
    · simp only [lookupKV, h0, if_false] at h
      exact List.mem_cons_of_mem _ (ih h)

theorem mem_lookup_of_unique (m : List (String × α)) (k : String) (v : α)
    (hu : keysUnique m) (h : (k, v) ∈ m) : lookupKV m k = some v := by
  induction m with
  | nil => simp at h
  | cons hd rest ih =>
    obtain ⟨k0, v0⟩ := hd
    have hrest : keysUnique rest := (List.nodup_cons.mp hu).2
    have hk0 : k0 ∉ rest.map Prod.fst := (List.nodup_cons.mp hu).1
    rcases List.mem_cons.mp h with heq | hmem
    · obtain ⟨h1, h2⟩ := Prod.mk.injEq .. |>.mp heq.symm
      simp [lookupKV, h1, h2]
    · by_cases h0 : k0 = k
      · exfalso
        apply hk0
        subst h0
        exact List.mem_map.mpr ⟨(k0, v), hmem, rfl⟩
      · simp only [lookupKV, h0, if_false]
        exact ih hrest hmem

theorem fold_nodes_key_eq (l : List Node) :
    ∀ m, (∀ kv ∈ m, kv.1 = entryKey kv.2) →
      ∀ kv ∈ l.foldl (fun idx n => mapSet idx (nodeMapKey n) (mkNodeEntry n)) m,
        kv.1 = entryKey kv.2 := by
  induction l with
  | nil => intro m hm; simpa using hm
  | cons n rest ih =>
    intro m hm
    simp only [List.foldl_cons]
    refine ih _ ?_
    intro kv hkv
    rcases mem_mapSet_weak m (nodeMapKey n) (mkNodeEntry n) kv hkv with heq | hmem
    · subst heq; rfl
    · exact hm kv hmem

theorem fold_edges_key_eq (l : List Edge) :
    ∀ m, (∀ kv ∈ m, kv.1 = entryKey kv.2) →
      ∀ kv ∈ l.foldl (fun idx e => mapSet idx (edgeMapKey e) (mkEdgeEntry e)) m,
        kv.1 = entryKey kv.2 := by
  induction l with
  | nil => intro m hm; simpa using hm
  | cons e rest ih =>
    intro m hm
    simp only [List.foldl_cons]
    refine ih _ ?_
    intro kv hkv
    rcases mem_mapSet_weak m (edgeMapKey e) (mkEdgeEntry e) kv hkv with heq | hmem
    · subst heq; rfl
    · exact hm kv hmem

theorem searchIndex_key_eq (d : Dataset) :
    ∀ kv ∈ buildSearchIndex d, kv.1 = entryKey kv.2 :=
  fold_edges_key_eq d.edges _
    (fold_nodes_key_eq d.nodes [] (by simp))

theorem fold_nodes_unique (l : List Node) :
    ∀ m, keysUnique (α := IndexEntry) m →
      keysUnique (l.foldl (fun idx n => mapSet idx (nodeMapKey n) (mkNodeEntry n)) m) := by
  induction l with
  | nil => intro m hm; simpa using hm
  | cons n rest ih =>
    intro m hm
    simp only [List.foldl_cons]
    exact ih _ (keysUnique_mapSet m _ _ hm)

theorem fold_edges_unique (l : List Edge) :
    ∀ m, keysUnique (α := IndexEntry) m →
      keysUnique (l.foldl (fun idx e => mapSet idx (edgeMapKey e) (mkEdgeEntry e)) m) := by
  induction l with
  | nil => intro m hm; simpa using hm
  | cons e rest ih =>
    intro m hm
    simp only [List.foldl_cons]
    exact ih _ (keysUnique_mapSet m _ _ hm)

theorem searchIndex_unique (d : Dataset) : keysUnique (buildSearchIndex d) :=
  fold_edges_unique d.edges _
    (fold_nodes_unique d.nodes [] (by simp [keysUnique]))

theorem fold_edges_lookup_ne (l : List Edge) :
    ∀ m (k : String), (∀ e ∈ l, edgeMapKey e ≠ k) →
      lookupKV (l.foldl (fun idx e => mapSet idx (edgeMapKey e) (mkEdgeEntry e)) m) k =
        lookupKV m k := by
  induction l with
  | nil => intro m k _; simp
  | cons e rest ih =>
    intro m k hne
    simp only [List.foldl_cons]
    rw [ih _ k (fun x hx => hne x (List.mem_cons_of_mem _ hx))]
    exact lookup_mapSet_ne m _ k _
      (fun h => hne e (List.mem_cons_self _ _) h.symm)

theorem fold_edges_presence (l : List Edge) :
    ∀ m (k : String), (∃ w, lookupKV m k = some w) →
      ∃ w, lookupKV (l.foldl (fun idx e => mapSet idx (edgeMapKey e) (mkEdgeEntry e)) m) k =
        some w := by
  induction l with
  | nil => intro m k h; simpa using h
  | cons e rest ih =>
    intro m k h
    simp only [List.foldl_cons]
    refine ih _ k ?_
    by_cases hk : k = edgeMapKey e
    · subst hk
      exact ⟨mkEdgeEntry e, lookup_mapSet_self m _ _⟩
    · obtain ⟨w, hw⟩ := h
      exact ⟨w, by rw [lookup_mapSet_ne m _ k _ hk, hw]⟩

/-! ### Lemmas: label shortening and query classification -/

theorem createShortened_eq_find (entry : PathEntry) :
    ∀ prefixes : List PrefixInfo,
      createShortenedLabel entry prefixes =
        match prefixes.find? (qualifiesCandidate entry) with
        | some p => shortLabelFor entry p
        | none => entry.label := by
  intro prefixes
  induction prefixes with
  | nil => rfl
  | cons p rest ih =>
    by_cases hmem : entry.id ∈ p.nodeIds ∧ 2 ≤ p.nodeIds.length
    · by_cases hlen : (splitChar p.prefixKey '\\').length + 1 < entry.parts.length
      · have hq : qualifiesCandidate entry p = true := by
          simp [qualifiesCandidate, hmem.1, hmem.2, hlen]
        simp [createShortenedLabel, hmem, hlen, List.find?_cons, hq]
      · have hq : qualifiesCandidate entry p = false := by
          simp [qualifiesCandidate, hlen]
        simp [createShortenedLabel, hmem, hlen, List.find?_cons, hq, ih]
    · have hq : qualifiesCandidate entry p = false := by
        simp only [qualifiesCandidate, Bool.and_eq_false_imp, Bool.and_eq_true,
          decide_eq_true_eq, decide_eq_false_iff_not]
        intro hab
        exact absurd hab hmem
      simp [createShortenedLabel, hmem, List.find?_cons, hq, ih]

theorem charsStart_exists (pre : List Char) :
    ∀ s, charsStart pre s = true → ∃ r, s = pre ++ r := by
  induction pre with
  | nil => intro s _; exact ⟨s, rfl⟩
  | cons a as ih =>
    intro s h
    cases s with
    | nil => simp [charsStart] at h
    | cons b bs =>
      simp only [charsStart, Bool.and_eq_true, decide_eq_true_eq] at h
      obtain ⟨r, hr⟩ := ih bs h.2
      exact ⟨r, by simp [h.1, hr]⟩

/-! ### Claim theorems -/

/-- Claim C1: for every list of input edges, global edge aggregation
(`combineEdgesByOperation`) returns a list in which the sum of
`combined_count` over all output edges equals the number of input edges,
and the output list is sorted ascending by `entry_index`. -/
theorem claim_C1_aggregation_sum_and_sorted (edges : List Edge) :
    ((combineEdgesByOperation edges).map CombinedEdge.combined_count).sum
      = edges.length ∧
    List.Sorted entryIndexLe (combineEdgesByOperation edges) := by
  constructor
  · have hperm : (combineEdgesByOperation edges).Perm
        (((buildCombinedMap edges).map Prod.snd).map finalizeCombined) :=
      List.perm_insertionSort entryIndexLe _
    calc ((combineEdgesByOperation edges).map CombinedEdge.combined_count).sum
        = ((((buildCombinedMap edges).map Prod.snd).map finalizeCombined).map
            CombinedEdge.combined_count).sum :=
          (hperm.map CombinedEdge.combined_count).sum_eq
      _ = sumCounts (buildCombinedMap edges) := by
          simp only [List.map_map, sumCounts]
          congr 1
          apply List.map_congr_left
          intro kv _
          exact finalize_count kv.2
      _ = edges.length := by
          have h := sumCounts_foldl edges []
          simpa [buildCombinedMap, sumCounts] using h
  · exact List.sorted_insertionSort entryIndexLe _

/-- Claim C2: every edge produced by global aggregation satisfies the
combined-edge invariant — its `entry_index` equals the minimum of its
`entry_indices` array and its `combined_count` equals the length of its
`original_edges` array. -/
theorem claim_C2_combined_edge_invariant (edges : List Edge) (c : CombinedEdge)
    (hc : c ∈ combineEdgesByOperation edges) :
    c.entry_index = listMinInt c.entry_indices ∧
    c.combined_count = c.original_edges.length := by
  rw [mem_combine_iff] at hc
  obtain ⟨v, hv, hfin⟩ := List.mem_map.mp hc
  obtain ⟨kv, hkv, hsnd⟩ := List.mem_map.mp hv
  have hg : goodVal edges kv := goodVal_buildMap edges kv hkv
  obtain ⟨hcnt, hidx, hne, _, hone⟩ := hg
  subst hsnd
  by_cases hgt : kv.2.combined_count > 1
  · constructor
    · rw [← hfin]
      simp [finalizeCombined, hgt]
    · rw [← hfin]
      simpa [finalizeCombined, hgt] using hcnt
  · have h1 : kv.2.combined_count = 1 := by
      have h0 : kv.2.original_edges.length ≠ 0 :=
        fun h0 => hne (List.length_eq_zero.mp h0)
      omega
    obtain ⟨e0, horig, hval⟩ := hone h1
    have hfix : c = kv.2 := by
      rw [← hfin]
      simp [finalizeCombined, h1]
    subst hfix
    rw [hval]
    constructor
    · show (mkSingle e0).entry_index = listMinInt (mkSingle e0).entry_indices
      simp [mkSingle, listMinInt]
    · rfl

/-- Claim C2 witness: the combined `CreateFile` edge built from two
same-key edges satisfies the invariant. -/
theorem claim_C2_witness :
    c2Sample ∈ combineEdgesByOperation [dupEdge1, dupEdge2] ∧
    (c2Sample.entry_index = listMinInt c2Sample.entry_indices ∧
     c2Sample.combined_count = c2Sample.original_edges.length) :=
  ⟨by decide, claim_C2_combined_edge_invariant [dupEdge1, dupEdge2] c2Sample (by decide)⟩

/-- Claim C3: the grouping key is the plain string `src + "-" + dst + "-" +
operation`, so `aliasEdgeA` and `aliasEdgeB` — which differ in both `src`
and `dst` — collide on the key `a-b-c-x` and are merged into one combined
edge, contradicting the documented grouping by the `(src, dst, operation)`
triple. -/
theorem claim_C3_key_collision :
    aliasEdgeA.src ≠ aliasEdgeB.src ∧ aliasEdgeA.dst ≠ aliasEdgeB.dst ∧
    edgeKey aliasEdgeA = edgeKey aliasEdgeB ∧
    (combineEdgesByOperation [aliasEdgeA, aliasEdgeB]).map
      (fun c => (c.combined_count, c.original_edges))
      = [(2, [aliasEdgeA, aliasEdgeB])] := by
  decide

/-- Claim C4: range windowing returns a subset of the input in which every
output edge satisfies `start ≤ entry_index ≤ end`, and re-windowing with
the same range is a no-op. -/
theorem claim_C4_windowing (edges : List Edge) (s e : Int) :
    (∀ x, x ∈ windowEdgesByRange edges s e →
      x ∈ edges ∧ s ≤ x.entry_index ∧ x.entry_index ≤ e) ∧
    windowEdgesByRange (windowEdgesByRange edges s e) s e
      = windowEdgesByRange edges s e := by
  constructor
  · intro x hx
    have h1 := List.mem_of_mem_filter hx
    have h2 := List.of_mem_filter hx
    simp only [Bool.and_eq_true, decide_eq_true_eq] at h2
    exact ⟨h1, h2.1, h2.2⟩
  · unfold windowEdgesByRange
    rw [List.filter_filter]
    congr 1
    funext edge
    exact Bool.and_self _

/-- Claim C4 witness: a concrete in-range edge survives the window and the
window of a window is unchanged. -/
theorem claim_C4_witness :
    (windowEdge ∈ windowEdgesByRange [windowEdge] 1 5 ∧
      (windowEdge ∈ [windowEdge] ∧
        1 ≤ windowEdge.entry_index ∧ windowEdge.entry_index ≤ 5)) ∧
    windowEdgesByRange (windowEdgesByRange [windowEdge] 1 5) 1 5
      = windowEdgesByRange [windowEdge] 1 5 :=
  ⟨⟨by decide, (claim_C4_windowing [windowEdge] 1 5).1 windowEdge (by decide)⟩,
   (claim_C4_windowing [windowEdge] 1 5).2⟩

/-- Claim C5 counterexample: for the registry labels `A\B\C` and `A\B\D`
the candidate prefix is `A\B` (two segments); the first node has strictly
more segments (three) than the prefix, so under the claim's qualification
it must be shortened to `A\~\C` — the code leaves the label unchanged,
because it requires strictly more segments than the prefix length plus one. -/
theorem claim_C5_counterexample :
    specShortenedLabel regP1 (findCommonPrefixes [regP1, regP2]) = "A\\~\\C" ∧
    createShortenedLabel regP1 (findCommonPrefixes [regP1, regP2]) = "A\\B\\C" ∧
    ("A\\~\\C" : String) ≠ "A\\B\\C" := by
  decide

/-- Claim C5, amended: a Registry node's label is shortened exactly when it
qualifies for the first (longest-ranked) common-prefix candidate — it
belongs to a candidate set of size at least 2 and has MORE THAN ONE path
segment beyond the prefix (strictly more segments than the prefix length
plus one) — and then the label is the root segment, `\~\`, and the
segments remaining after the prefix; otherwise the label is unchanged. -/
theorem claim_C5_amended_shortening (group : List PathEntry) (entry : PathEntry) :
    createShortenedLabel entry (findCommonPrefixes group) =
      match (findCommonPrefixes group).find? (qualifiesCandidate entry) with
      | some p => shortLabelFor entry p
      | none => entry.label :=
  createShortened_eq_find entry (findCommonPrefixes group)

/-- Claim C6 counterexample: a singleton group is NOT emitted with every
field preserved — its `id` is replaced by the grouping key string. -/
theorem claim_C6_counterexample :
    singletonEdge.id = some "edge-7" ∧
    (combineEdgesByOperation [singletonEdge]).map CombinedEdge.id = ["a-b-x"] ∧
    ("a-b-x" : String) ≠ "edge-7" := by
  decide

/-- Claim C6, amended: a group with `combined_count = 1` is emitted with
`is_combined = false` as exactly the fresh map entry `mkSingle e` of some
input edge `e` — every field of `e` is preserved except `id`, which is
replaced by the grouping key (see `mkSingle`). -/
theorem claim_C6_amended_singleton (edges : List Edge) (c : CombinedEdge)
    (hc : c ∈ combineEdgesByOperation edges) (h1 : c.combined_count = 1) :
    c.is_combined = false ∧ ∃ e, e ∈ edges ∧ c = mkSingle e := by
  rw [mem_combine_iff] at hc
  obtain ⟨v, hv, hfin⟩ := List.mem_map.mp hc
  obtain ⟨kv, hkv, hsnd⟩ := List.mem_map.mp hv
  have hg : goodVal edges kv := goodVal_buildMap edges kv hkv
  obtain ⟨hcnt, hidx, hne, hmemS, hone⟩ := hg
  subst hsnd
  have hcc : kv.2.combined_count = 1 := by
    rw [← hfin] at h1
    rw [← finalize_count kv.2]
    exact h1
  obtain ⟨e0, horig, hval⟩ := hone hcc
  have hfix : c = kv.2 := by
    rw [← hfin]
    simp [finalizeCombined, hcc]
  subst hfix
  rw [hval]
  refine ⟨rfl, e0, ?_, rfl⟩
  exact hmemS e0 (by simp [horig])

/-- Claim C6 witness: the aggregation of one concrete edge is its fresh
entry with `is_combined = false`. -/
theorem claim_C6_witness :
    (mkSingle singletonEdge ∈ combineEdgesByOperation [singletonEdge] ∧
      (mkSingle singletonEdge).combined_count = 1) ∧
    ((mkSingle singletonEdge).is_combined = false ∧
      ∃ e, e ∈ [singletonEdge] ∧ mkSingle singletonEdge = mkSingle e) :=
  ⟨⟨by decide, by decide⟩,
   claim_C6_amended_singleton [singletonEdge] (mkSingle singletonEdge)
     (by decide) (by decide)⟩

/-- Claim C7 counterexample: the token `process:chrome` is captured by the
operation-name heuristic (it starts with `process`), so the parser records
it as the operation predicate and NOT as a process predicate. -/
theorem claim_C7_counterexample :
    (parseSearchQuery "process:chrome").process = none ∧
    (parseSearchQuery "process:chrome").operation = some "process:chrome" := by
  decide

/-- Claim C7, amended: a token starting with `pid:` that is not caught by
the earlier operation-name heuristic or registry-path detector is recorded
as the process predicate (tokens starting with `process:` always hit the
operation-name prefix heuristic first). -/
theorem claim_C7_amended_pid_process (p : SearchPatterns) (term : String)
    (hpid : strStarts term "pid:" = true)
    (hop : isOperationLikeTerm term = false)
    (hreg : isRegistryPathTerm term = false) :
    applyTerm p term = { p with process := some term } := by
  obtain ⟨r, hr⟩ := charsStart_exists _ _ hpid
  have hop3 : strStarts term "op:" = false := by
    have h2 : "op:".data = ['o', 'p', ':'] := rfl
    have h3 : "pid:".data = ['p', 'i', 'd', ':'] := rfl
    rw [h3] at hr
    unfold strStarts
    rw [h2, hr]
    simp [charsStart]
  simp [applyTerm, hop3, hop, hreg, hpid]

/-- Claim C7 witness: the token `pid:1234` is recorded as the process
predicate. -/
theorem claim_C7_witness :
    (strStarts "pid:1234" "pid:" = true ∧
      isOperationLikeTerm "pid:1234" = false ∧
      isRegistryPathTerm "pid:1234" = false) ∧
    applyTerm ({} : SearchPatterns) "pid:1234"
      = { ({} : SearchPatterns) with process := some "pid:1234" } :=
  ⟨⟨by decide, by decide, by decide⟩,
   claim_C7_amended_pid_process {} "pid:1234" (by decide) (by decide) (by decide)⟩

/-- Claim C8: `validateEntryRange(start, end)` reports the range invalid
exactly when `start > end` or `end - start` exceeds
`CONFIG.maxEntryRange = 10000`. -/
theorem claim_C8_validate_entry_range (s e : Int) :
    ((validateEntryRange s e).valid = false ↔
      s > e ∨ e - s > CONFIG.maxEntryRange) ∧
    CONFIG.maxEntryRange = 10000 := by
  refine ⟨?_, rfl⟩
  unfold validateEntryRange
  split_ifs with h1 h2
  · exact ⟨fun _ => Or.inl h1, fun _ => rfl⟩
  · exact ⟨fun _ => Or.inr h2, fun _ => rfl⟩
  · constructor
    · intro h
      simp at h
    · intro h
      rcases h with h | h
      · exact absurd h h1
      · exact absurd h h2

/-- Claim C9 counterexample: the edge to the absent node id `ghost` is NOT
skipped — it contributes to the aggregation output and is entered into the
search index. -/
theorem claim_C9_counterexample :
    danglingEdge.dst ∉ danglingData.nodes.map Node.id ∧
    (combineEdgesByOperation danglingData.edges).map CombinedEdge.original_edges
      = [[danglingEdge]] ∧
    lookupKV (buildSearchIndex danglingData) (edgeMapKey danglingEdge)
      = some (mkEdgeEntry danglingEdge) := by
  decide

/-- Claim C9, amended: edges are never checked against the node collection —
every edge of a dataset, dangling or not, contributes to some combined
edge's `original_edges` and has its key present in the search index. -/
theorem claim_C9_amended_no_skipping (d : Dataset) (e : Edge) (he : e ∈ d.edges) :
    (∃ c ∈ combineEdgesByOperation d.edges, e ∈ c.original_edges) ∧
    ∃ ent, lookupKV (buildSearchIndex d) (edgeMapKey e) = some ent := by
  constructor
  · obtain ⟨kv, hkv, hmem⟩ := cover_buildMap d.edges e he
    refine ⟨finalizeCombined kv.2, ?_, ?_⟩
    · rw [mem_combine_iff]
      exact List.mem_map.mpr ⟨kv.2, List.mem_map.mpr ⟨kv, hkv, rfl⟩, rfl⟩
    · rw [finalize_orig]
      exact hmem
  · obtain ⟨l₁, l₂, hsplit⟩ := List.append_of_mem he
    unfold buildSearchIndex
    rw [hsplit, List.foldl_append, List.foldl_cons]
    apply fold_edges_presence
    exact ⟨mkEdgeEntry e, lookup_mapSet_self _ _ _⟩

/-- Claim C9 witness: the dangling edge of the concrete dataset is
aggregated and indexed. -/
theorem claim_C9_witness :
    danglingEdge ∈ danglingData.edges ∧
    ((∃ c ∈ combineEdgesByOperation danglingData.edges,
        danglingEdge ∈ c.original_edges) ∧
      ∃ ent, lookupKV (buildSearchIndex danglingData) (edgeMapKey danglingEdge)
        = some ent) :=
  ⟨by decide, claim_C9_amended_no_skipping danglingData danglingEdge (by decide)⟩

/-- Claim C10: two distinct id-less edges with the same `src` and `dst` are
stored under the same index key `edge-src-dst`; after the later one is
indexed (with no later same-key edge), the key holds only the later edge's
entry, and the earlier edge's entry is not a value of the index at all, so
no search can return it. -/
theorem claim_C10_index_shadowing (d : Dataset) (e1 e2 : Edge)
    (l₁ l₂ : List Edge)
    (hsplit : d.edges = l₁ ++ e2 :: l₂) (h1 : e1 ∈ l₁)
    (hid1 : e1.id = none) (hid2 : e2.id = none)
    (hsrc : e1.src = e2.src) (hdst : e1.dst = e2.dst) (hne : e1 ≠ e2)
    (hafter : ∀ x ∈ l₂, edgeMapKey x ≠ edgeMapKey e2) :
    lookupKV (buildSearchIndex d) (edgeMapKey e2) = some (mkEdgeEntry e2) ∧
    ∀ kv ∈ buildSearchIndex d, kv.2 ≠ mkEdgeEntry e1 := by
  have hkey : edgeMapKey e1 = edgeMapKey e2 := by
    simp [edgeMapKey, edgeIdxId, optStrOr, hid1, hid2, hsrc, hdst]
  have hlook : lookupKV (buildSearchIndex d) (edgeMapKey e2)
      = some (mkEdgeEntry e2) := by
    unfold buildSearchIndex
    rw [hsplit, List.foldl_append, List.foldl_cons]
    rw [fold_edges_lookup_ne l₂ _ _ hafter]
    exact lookup_mapSet_self _ _ _
  refine ⟨hlook, ?_⟩
  intro kv hkv hcontra
  have hk := searchIndex_key_eq d kv hkv
  rw [hcontra] at hk
  have hk2 : kv.1 = edgeMapKey e2 := by
    rw [hk, ← hkey]
    rfl
  have hmem : (edgeMapKey e2, mkEdgeEntry e1) ∈ buildSearchIndex d := by
    have hpair : kv = (edgeMapKey e2, mkEdgeEntry e1) := by
      obtain ⟨a, b⟩ := kv
      simp only [Prod.mk.injEq]
      exact ⟨hk2, hcontra⟩
    rwa [hpair] at hkv
  have hl2 := mem_lookup_of_unique _ _ _ (searchIndex_unique d) hmem
  rw [hlook] at hl2
  have heq : mkEdgeEntry e1 = mkEdgeEntry e2 := Option.some.inj hl2.symm
  apply hne
  have := IndexEntry.edgeEntry.injEq .. |>.mp heq
  exact this.2.2.1

/-- Claim C10 witness: in a dataset with two distinct id-less edges between
`a` and `b`, the shared key holds the later edge and no index value is the
earlier edge's entry. -/
theorem claim_C10_witness :
    (shadowData.edges = [shadowE1] ++ shadowE2 :: [] ∧ shadowE1 ∈ [shadowE1] ∧
      shadowE1.id = none ∧ shadowE2.id = none ∧
      shadowE1.src = shadowE2.src ∧ shadowE1.dst = shadowE2.dst ∧
      shadowE1 ≠ shadowE2) ∧
    (lookupKV (buildSearchIndex shadowData) (edgeMapKey shadowE2)
        = some (mkEdgeEntry shadowE2) ∧
      ∀ kv ∈ buildSearchIndex shadowData, kv.2 ≠ mkEdgeEntry shadowE1) :=
  ⟨⟨rfl, by decide, rfl, rfl, rfl, rfl, by decide⟩,
   claim_C10_index_shadowing shadowData shadowE1 shadowE2 [shadowE1] []
     rfl (by decide) rfl rfl rfl rfl (by decide) (by simp)⟩
